import Mathlib

/-!
Verification of the job synchronization and merge engine of the TallerPro
workshop-management app (`services/firebaseService.ts`,
`services/googleSheetsService.ts`, `types.ts`).

Shallow embedding notes.
* A JS `number` timestamp is modelled as `Option Int`: `none` models `NaN`
  (the value of `new Date(s).getTime()` for an unparsable date string `s`).
* TS optional fields (`carDetails?`, `intakeImage?`, `damageImages?`) are
  modelled as `Option`.  Every `Job` object this code base constructs
  (`createJob` in `CarIntakeTab`, `rowToJob`, `{ ...job, ...updates }`
  updates, and the merge itself) carries all `Job` keys, so the object
  spread `{ ...rJob, ...lJob }` resolves to the local value for every
  field; `combineJobs` embeds that spread plus the two explicit image
  overrides.
* The runtime values of the string enums `JobStatus` and
  `Job.repairType` are plain strings (`rowToJob` casts arbitrary cell
  contents into them), so `status` and `repairType` are modelled as
  `String`.
* External collaborators (the `Date` codec and `JSON.parse`) are taken as
  parameters, constrained only by the contracts the code relies on.
-/

/-- `CarDetails` from `types.ts`: plate/make/model required, year/color
optional. -/
structure CarDetails where
  plate : String
  make : String
  model : String
  year : Option String := none
  color : Option String := none
deriving DecidableEq, Repr

/-- `Job` from `types.ts`.  `createdAt` is a JS number of epoch
milliseconds; `none` models `NaN` (an invalid date). -/
structure Job where
  id : String
  createdAt : Option Int
  status : String
  carDetails : Option CarDetails
  intakeImage : Option String
  damageImages : Option (List String)
  identifiedParts : List String
  manualNotes : String
  repairType : String
deriving DecidableEq, Repr

/-- The runtime string values of the `JobStatus` enum. -/
def jobStatusValues : List String :=
  ["Ingreso", "Valoración", "En Proceso", "Terminado"]

/-- The runtime string values of the `repairType` union. -/
def repairTypeValues : List String := ["CHAPA", "PINTURA", "AMBOS"]

/-- JS `lJob.intakeImage || rJob.intakeImage`: the local value unless it is
falsy (`undefined` or the empty string). -/
def jsOrImage (l r : Option String) : Option String :=
  match l with
  | some s => if s = "" then r else some s
  | none => r

/-- JS `(lJob.damageImages && lJob.damageImages.length > 0) ?
lJob.damageImages : rJob.damageImages`. -/
def pickDamageImages (l r : Option (List String)) : Option (List String) :=
  match l with
  | some imgs => if imgs.length > 0 then some imgs else r
  | none => r

/-- The merged entry written by `jobMap.set(lJob.id, { ...rJob, ...lJob,
intakeImage: ..., damageImages: ... })`: every field comes from the local
job (all keys are present on local job objects, so the second spread wins),
except the two image fields with their explicit fallbacks. -/
def combineJobs (rJob lJob : Job) : Job :=
  { lJob with
    intakeImage := jsOrImage lJob.intakeImage rJob.intakeImage
    damageImages := pickDamageImages lJob.damageImages rJob.damageImages }

/-- The JS `Map<string, Job>` as an insertion-ordered association list. -/
abbrev JobMap := List (String × Job)

/-- Key membership test for the map. -/
def hasKey (m : JobMap) (k : String) : Bool :=
  m.any (fun p => decide (p.1 = k))

/-- `Map.set`: updating an existing key keeps its original insertion
position; a new key is appended. -/
def mapSet (m : JobMap) (k : String) (v : Job) : JobMap :=
  if hasKey m k then m.map (fun p => if p.1 = k then (k, v) else p)
  else m ++ [(k, v)]

/-- `Map.get`. -/
def mapGet (m : JobMap) (k : String) : Option Job :=
  (m.find? (fun p => decide (p.1 = k))).map Prod.snd

/-- `Array.from(map.values())` (insertion order). -/
def mapValues (m : JobMap) : List Job := m.map Prod.snd

/-- The keys of the map in insertion order. -/
def mapKeys (m : JobMap) : List String := m.map Prod.fst

/-- The sort comparator `(a, b) => b.createdAt - a.createdAt`: `a` may stay
before `b` iff the comparator is `<= 0`.  A `NaN` difference is treated as
`+0` by `Array.prototype.sort` (ECMAScript `CompareArrayElements`), i.e. as
a tie. -/
def jobBefore (a b : Job) : Bool :=
  match a.createdAt, b.createdAt with
  | some av, some bv => decide (bv ≤ av)
  | _, _ => true

/-- Stable insertion of one job into an already sorted list. -/
def insertDesc (x : Job) : List Job → List Job
  | [] => [x]
  | y :: ys => if jobBefore x y then x :: y :: ys else y :: insertDesc x ys

/-- `.sort((a, b) => b.createdAt - a.createdAt)` modelled as a stable
insertion sort (stable sorts agree on every consistent comparator). -/
def sortJobsDesc : List Job → List Job
  | [] => []
  | x :: xs => insertDesc x (sortJobsDesc xs)

/-- One step of `remoteJobs.forEach(rJob => jobMap.set(rJob.id, rJob))` in
`syncWithFirebase`. -/
def seedStepFB (m : JobMap) (rJob : Job) : JobMap := mapSet m rJob.id rJob

/-- One step of the `localJobs.forEach` overlay in `syncWithFirebase`. -/
def overlayStepFB (m : JobMap) (lJob : Job) : JobMap :=
  match mapGet m lJob.id with
  | some rJob => mapSet m lJob.id (combineJobs rJob lJob)
  | none => mapSet m lJob.id lJob

/-- The merge step of `syncWithFirebase` (lines 111-142): seed the map
from the remote jobs, overlay the local jobs, sort the values by
`createdAt` descending. -/
def mergeFirebase (localJobs remoteJobs : List Job) : List Job :=
  let seeded := remoteJobs.foldl seedStepFB []
  let overlaid := localJobs.foldl overlayStepFB seeded
  sortJobsDesc (mapValues overlaid)

/-- One step of `sheetJobs.forEach(job => { if (job.id) jobMap.set(job.id,
job); })` in `syncWithGoogleSheets`: rows with a falsy (empty) id are
skipped. -/
def seedStepGS (m : JobMap) (job : Job) : JobMap :=
  if job.id = "" then m else mapSet m job.id job

/-- One step of the `localJobs.forEach` overlay in `syncWithGoogleSheets`:
local jobs with a falsy (empty) id are skipped. -/
def overlayStepGS (m : JobMap) (localJob : Job) : JobMap :=
  if localJob.id = "" then m
  else
    match mapGet m localJob.id with
    | some sheetJob => mapSet m localJob.id (combineJobs sheetJob localJob)
    | none => mapSet m localJob.id localJob

/-- The merge step of `syncWithGoogleSheets` (lines 153-187). -/
def mergeSheets (localJobs sheetJobs : List Job) : List Job :=
  let seeded := sheetJobs.foldl seedStepGS []
  let overlaid := localJobs.foldl overlayStepGS seeded
  sortJobsDesc (mapValues overlaid)

/-! ## Row codec (`googleSheetsService.ts`, `jobToRow` / `rowToJob`) -/

/-- Character-level model of JS `parts.join(', ')`. -/
def joinSepChars : List (List Char) → List Char
  | [] => []
  | [p] => p
  | p :: q :: rest => p ++ ',' :: ' ' :: joinSepChars (q :: rest)

/-- Character-level model of JS `s.split(', ')`: scan left to right for
the first occurrence of the two-character separator. -/
def splitSepChars : List Char → List Char → List (List Char)
  | [], acc => [acc.reverse]
  | [c], acc => [(c :: acc).reverse]
  | c1 :: c2 :: rest, acc =>
    if c1 = ',' then
      if c2 = ' ' then acc.reverse :: splitSepChars rest []
      else splitSepChars (c2 :: rest) (c1 :: acc)
    else splitSepChars (c2 :: rest) (c1 :: acc)

/-- `(job.identifiedParts || []).join(', ')`. -/
def partsJoin (parts : List String) : String :=
  String.mk (joinSepChars (parts.map String.data))

/-- `partsStr.split(', ')`. -/
def partsSplit (s : String) : List String :=
  (splitSepChars s.data []).map String.mk

/-- Classification of a `JSON.parse` result as far as `rowToJob` inspects
it (`Array.isArray` plus the elements of a string array). -/
inductive JsonValue where
  | arr (items : List String)
  | nonArray
deriving DecidableEq, Repr

/-- `job.carDetails?.f || ''`. -/
def carField (job : Job) (f : CarDetails → String) : String :=
  (job.carDetails.map f).getD ""

/-- `jobToRow` (lines 6-23): the fixed-width row written to the sheet.
`isoOfTime` models `t => new Date(t).toISOString()`; the result is `none`
when `job.createdAt` is `NaN` (`toISOString` throws a `RangeError` on an
invalid date).  The two image columns are always the literal `"[]"`. -/
def jobToRow (isoOfTime : Int → String) (job : Job) : Option (List String) :=
  match job.createdAt with
  | none => none
  | some t =>
    some [job.id, isoOfTime t, job.status,
      carField job CarDetails.plate, carField job CarDetails.make,
      carField job CarDetails.model, job.repairType,
      partsJoin job.identifiedParts, job.manualNotes,
      "[]", "[]"]

/-- `row[i] || dflt`: a missing, `undefined` or empty cell falls back to
the default (all are falsy; a sheet cell is otherwise a string). -/
def cellOr (row : List String) (i : Nat) (dflt : String) : String :=
  if row.getD i "" = "" then dflt else row.getD i ""

/-- `rowToJob` (lines 26-69).  `parseTime` models
`s => new Date(s).getTime()` with `none` for `NaN`; `now` is the current
time used by the `new Date().toISOString()` fallback for a missing date
cell; `jsonParse` models `JSON.parse` on the two image columns with `none`
for a thrown `SyntaxError`.  A throw while parsing the intake column skips
the damage column as well (single `try` block), leaving both defaults. -/
def rowToJob (parseTime : String → Option Int) (isoOfTime : Int → String)
    (now : Int) (jsonParse : String → Option JsonValue)
    (row : List String) : Job :=
  let dateStr := cellOr row 1 (isoOfTime now)
  let partsStr := cellOr row 7 ""
  let intakeJson := cellOr row 9 "[]"
  let damageJson := cellOr row 10 "[]"
  let images :=
    match jsonParse intakeJson with
    | none => (none, [])
    | some v =>
      let intake := match v with
        | JsonValue.arr (x :: _) => some x
        | _ => none
      match jsonParse damageJson with
      | none => (intake, ([] : List String))
      | some w =>
        match w with
        | JsonValue.arr xs => (intake, xs)
        | _ => (intake, [])
  { id := cellOr row 0 ""
    createdAt := parseTime dateStr
    status := cellOr row 2 "Ingreso"
    carDetails := some
      { plate := cellOr row 3 "", make := cellOr row 4 "",
        model := cellOr row 5 "" }
    intakeImage := images.1
    damageImages := some images.2
    identifiedParts := if partsStr = "" then [] else partsSplit partsStr
    manualNotes := cellOr row 8 ""
    repairType := cellOr row 6 "AMBOS" }

/-- A concrete conforming instance of the `JSON.parse` parameter, used by
witnesses: it parses the empty-array literal and fails on everything
else. -/
def jsonParseModel (s : String) : Option JsonValue :=
  if s = "[]" then some (JsonValue.arr []) else none

/-! ## Image normalizer (`firebaseService.ts`, `compressImage`) -/

/-- `Math.round(a / b)` on nonnegative values: round half up. -/
def roundDiv (a b : Nat) : Nat := (2 * a + b) / (2 * b)

/-- The dimension logic of `compressImage` (lines 30-41): scale down to
`maxWidth` preserving aspect ratio only when the source is wider. -/
def compressImageDims (w h maxWidth : Nat) : Nat × Nat :=
  if w > maxWidth then (maxWidth, roundDiv (h * maxWidth) w) else (w, h)

/-! ## Sync orchestrators -/

/-- `prepareJobForCloud` (lines 64-90): clone the job (`{ ...job }`) and
replace its images by compressed versions.  `compress` models a successful
`compressImage` re-encoding (the promise never rejects). -/
def prepareJobForCloud (compress : String → String) (job : Job) : Job :=
  { job with
    intakeImage :=
      match job.intakeImage with
      | some s => if s = "" then some s else some (compress s)
      | none => none
    damageImages :=
      match job.damageImages with
      | some imgs => if imgs.length > 0 then some (imgs.map compress)
        else some imgs
      | none => none }

/-- The observable outcome of the write phase of `syncWithFirebase`
(lines 142-173): the list the function returns, the jobs selected for the
batch (`mergedJobs.slice(0, 450)`), and the prepared per-job payload
copies actually written. -/
structure FirebaseSyncResult where
  returnedJobs : List Job
  batchedJobs : List Job
  batchedPayloads : List Job
deriving DecidableEq, Repr

/-- `syncWithFirebase` after a successful fetch of `remoteJobs`: merge,
cap the batch at 450 documents, prepare payload copies, return the full
merged list. -/
def syncWithFirebaseModel (compress : String → String)
    (localJobs remoteJobs : List Job) : FirebaseSyncResult :=
  let mergedJobs := mergeFirebase localJobs remoteJobs
  let jobsToSave := mergedJobs.take 450
  { returnedJobs := mergedJobs
    batchedJobs := jobsToSave
    batchedPayloads := jobsToSave.map (prepareJobForCloud compress) }

/-- `FirebaseConfig` from `types.ts`. -/
structure FirebaseConfig where
  apiKey : String
  authDomain : String
  projectId : String
  storageBucket : Option String
  messagingSenderId : Option String
  appId : String
deriving DecidableEq, Repr

/-- `AppSettings` from `types.ts`. -/
structure AppSettings where
  firebaseConfig : Option FirebaseConfig
  googleSheetId : Option String
  googleAccessToken : Option String
deriving DecidableEq, Repr

/-- A sync run either raises the configuration error before any remote
call (the caller keeps its local list) or proceeds to return a merged
list. -/
inductive SyncOutcome where
  | configError
  | proceed (mergedJobs : List Job)
deriving DecidableEq, Repr

/-- The guard `!settings.firebaseConfig || !settings.firebaseConfig.apiKey`
(lines 95-97). -/
def firebaseConfigMissing (settings : AppSettings) : Bool :=
  match settings.firebaseConfig with
  | none => true
  | some cfg => decide (cfg.apiKey = "")

/-- The guard `!settings.googleSheetId || !settings.googleAccessToken`
(lines 129-131). -/
def sheetsConfigMissing (settings : AppSettings) : Bool :=
  (match settings.googleSheetId with
   | none => true
   | some s => decide (s = "")) ||
  (match settings.googleAccessToken with
   | none => true
   | some s => decide (s = ""))

/-- Control flow of `syncWithFirebase` (lines 94-142): the config guard
throws before `getDb` / `getDocs` touch the backend; otherwise the merged
list is produced from the fetched remote jobs. -/
def syncWithFirebaseOutcome (localJobs : List Job) (settings : AppSettings)
    (remoteJobs : List Job) : SyncOutcome :=
  if firebaseConfigMissing settings then SyncOutcome.configError
  else SyncOutcome.proceed (mergeFirebase localJobs remoteJobs)

/-- Control flow of `syncWithGoogleSheets` (lines 128-187): the config
guard throws before `ensureSheetExists` or any fetch; otherwise the merged
list is produced from the decoded sheet rows. -/
def syncWithGoogleSheetsOutcome (localJobs : List Job)
    (settings : AppSettings) (sheetJobs : List Job) : SyncOutcome :=
  if sheetsConfigMissing settings then SyncOutcome.configError
  else SyncOutcome.proceed (mergeSheets localJobs sheetJobs)

/-! ## Concrete sample data used in closed statements -/

/-- A job present only remotely, id `"a"`. -/
def sampleRemoteA : Job :=
  { id := "a", createdAt := some 100, status := "Ingreso",
    carDetails := some { plate := "R-1", make := "Opel", model := "Astra" },
    intakeImage := some "R", damageImages := some ["rd1", "rd2"],
    identifiedParts := ["capo"], manualNotes := "remote",
    repairType := "AMBOS" }

/-- The local edit of the same job id `"a"`. -/
def sampleLocalA : Job :=
  { id := "a", createdAt := some 150, status := "Valoración",
    carDetails := some { plate := "L-1", make := "Seat", model := "Ibiza" },
    intakeImage := some "L", damageImages := some ["ld1"],
    identifiedParts := ["puerta"], manualNotes := "local",
    repairType := "CHAPA" }

/-- A local copy of job `"a"` whose image fields are present but empty
(the empty string is falsy in JS). -/
def sampleLocalEmptyImages : Job :=
  { sampleLocalA with intakeImage := some "", damageImages := some [] }

/-- A job with an empty id, as `rowToJob` produces for a row with a blank
first cell. -/
def sampleEmptyId : Job :=
  { id := "", createdAt := some 5, status := "Ingreso", carDetails := none,
    intakeImage := none, damageImages := none, identifiedParts := [],
    manualNotes := "", repairType := "AMBOS" }

/-- An unrelated local job, id `"b"`. -/
def sampleJobB : Job :=
  { id := "b", createdAt := some 300, status := "En Proceso",
    carDetails := none, intakeImage := none, damageImages := some [],
    identifiedParts := [], manualNotes := "", repairType := "PINTURA" }

/-- A fully populated job used as the row-codec round-trip input. -/
def sampleRowJob : Job :=
  { id := "j1", createdAt := some 1000, status := "Valoración",
    carDetails := some { plate := "AB-123", make := "Seat", model := "Ibiza" },
    intakeImage := some "IMG", damageImages := some ["d1", "d2"],
    identifiedParts := ["puerta", "aleta"], manualNotes := "notas",
    repairType := "CHAPA" }

/-- The round-trip input whose parts list is the single empty string. -/
def samplePartsEmptyJob : Job :=
  { sampleRowJob with identifiedParts := [""] }

/-- A settings record with nothing configured. -/
def sampleEmptySettings : AppSettings :=
  { firebaseConfig := none, googleSheetId := none, googleAccessToken := none }

/-- Decimal digits of a natural number, most significant first (fuel-based
so that it reduces inside the kernel). -/
def natDigitsAux : Nat → Nat → List Char → List Char
  | 0, _, acc => acc
  | fuel + 1, n, acc =>
    if n < 10 then Char.ofNat (48 + n) :: acc
    else natDigitsAux fuel (n / 10) (Char.ofNat (48 + n % 10) :: acc)

/-- Decimal digit list of a natural number. -/
def natToDigits (n : Nat) : List Char := natDigitsAux (n + 1) n []

/-- Value of a decimal digit list. -/
def natOfDigits (ds : List Char) : Nat :=
  ds.foldl (fun n c => n * 10 + (c.toNat - 48)) 0

/-- Concrete conforming instantiation of the `Date` serializer parameter
used in closed statements: any injective encoding with a matching parser
satisfies the round-trip contract the code relies on. -/
def isoOfTimeModel : Int → String
  | Int.ofNat n => String.mk (natToDigits n)
  | Int.negSucc m => String.mk (Char.ofNat 45 :: natToDigits (m + 1))

/-- Concrete conforming instantiation of the `Date` parser parameter:
it inverts `isoOfTimeModel`, and strings that are not dates (such as
`"garbage"`) parse to `none`, i.e. `NaN`. -/
def parseTimeModel (s : String) : Option Int :=
  match s.data with
  | [] => none
  | c :: ds =>
    if c = Char.ofNat 45 then
      if ds ≠ [] ∧ ds.all Char.isDigit then some (-(natOfDigits ds : Int))
      else none
    else if (c :: ds).all Char.isDigit then some ((natOfDigits (c :: ds) : Int))
    else none

/-! ## Map lemmas -/

/-- Every map entry built by the merge holds a job whose `id` is its key. -/
def wellKeyed (m : JobMap) : Prop := ∀ p ∈ m, p.2.id = p.1

/-- Invariant carried through the merge folds: keys match the stored
jobs, keys are distinct, and every stored job satisfies `P`. -/
def goodMap (P : Job → Prop) (m : JobMap) : Prop :=
  wellKeyed m ∧ (mapKeys m).Nodup ∧ ∀ p ∈ m, P p.2

theorem hasKey_iff (m : JobMap) (k : String) :
    hasKey m k = true ↔ k ∈ mapKeys m := by
  constructor
  · intro h
    rcases List.any_eq_true.mp h with ⟨p, hp, hpk⟩
    have : p.1 = k := of_decide_eq_true hpk
    exact this ▸ List.mem_map.mpr ⟨p, hp, rfl⟩
  · intro h
    rcases List.mem_map.mp h with ⟨p, hp, hpk⟩
    exact List.any_eq_true.mpr ⟨p, hp, decide_eq_true hpk⟩

theorem find?_map_replace (m : JobMap) (k : String) (v : Job)
    (hk : k ∈ mapKeys m) :
    (m.map (fun p => if p.1 = k then (k, v) else p)).find?
      (fun p => decide (p.1 = k)) = some (k, v) := by
  induction m with
  | nil => simp [mapKeys] at hk
  | cons p rest ih =>
    by_cases hp : p.1 = k
    · simp only [List.map_cons, if_pos hp]
      exact List.find?_cons_of_pos _ (by simp)
    · have hk2 : k ∈ mapKeys rest := by
        simp only [mapKeys, List.map_cons, List.mem_cons] at hk
        rcases hk with h | h
        · exact absurd h.symm hp
        · exact h
      simp only [List.map_cons, if_neg hp]
      rw [List.find?_cons_of_neg _ (by simpa using hp)]
      exact ih hk2

theorem find?_append_missing (m : JobMap) (k : String) (v : Job)
    (h : ∀ p ∈ m, p.1 ≠ k) :
    (m ++ [(k, v)]).find? (fun p => decide (p.1 = k)) = some (k, v) := by
  rw [List.find?_append]
  have h1 : m.find? (fun p => decide (p.1 = k)) = none :=
    List.find?_eq_none.mpr (fun p hp => by simpa using h p hp)
  rw [h1]
  simp

theorem mapGet_mapSet_self (m : JobMap) (k : String) (v : Job) :
    mapGet (mapSet m k v) k = some v := by
  unfold mapSet
  by_cases h : hasKey m k = true
  · rw [if_pos h]
    unfold mapGet
    rw [find?_map_replace m k v ((hasKey_iff m k).mp h)]
    rfl
  · rw [if_neg h]
    unfold mapGet
    have hall : ∀ p ∈ m, p.1 ≠ k := by
      intro p hp hpk
      exact h ((hasKey_iff m k).mpr (List.mem_map.mpr ⟨p, hp, hpk⟩))
    rw [find?_append_missing m k v hall]
    rfl

theorem find?_map_replace_ne (m : JobMap) (k k2 : String) (v : Job)
    (hne : k2 ≠ k) :
    (m.map (fun p => if p.1 = k then (k, v) else p)).find?
      (fun p => decide (p.1 = k2)) = m.find? (fun p => decide (p.1 = k2)) := by
  induction m with
  | nil => simp
  | cons p rest ih =>
    by_cases hp : p.1 = k
    · have h2 : ¬ (p.1 = k2) := by rw [hp]; exact fun h => hne h.symm
      simp only [List.map_cons, if_pos hp]
      rw [List.find?_cons_of_neg _ (by simp; exact fun h => hne h.symm),
        List.find?_cons_of_neg _ (by simpa using h2)]
      exact ih
    · by_cases hp2 : p.1 = k2
      · simp only [List.map_cons, if_neg hp]
        rw [List.find?_cons_of_pos _ (by simpa using hp2),
          List.find?_cons_of_pos _ (by simpa using hp2)]
      · simp only [List.map_cons, if_neg hp]
        rw [List.find?_cons_of_neg _ (by simpa using hp2),
          List.find?_cons_of_neg _ (by simpa using hp2)]
        exact ih

theorem mapGet_mapSet_ne (m : JobMap) (k k2 : String) (v : Job)
    (hne : k2 ≠ k) :
    mapGet (mapSet m k v) k2 = mapGet m k2 := by
  unfold mapSet
  by_cases h : hasKey m k = true
  · rw [if_pos h]
    unfold mapGet
    rw [find?_map_replace_ne m k k2 v hne]
  · rw [if_neg h]
    unfold mapGet
    rw [List.find?_append]
    have h1 : ([((k, v))].find? (fun p => decide (p.1 = k2))) = none := by
      simp
      exact fun h => hne h.symm
    rw [h1]
    simp

theorem mapKeys_mapSet_replace (m : JobMap) (k : String) (v : Job)
    (h : hasKey m k = true) :
    mapKeys (mapSet m k v) = mapKeys m := by
  unfold mapSet
  rw [if_pos h]
  unfold mapKeys
  rw [List.map_map]
  apply List.map_congr_left
  intro p _
  by_cases hp : p.1 = k <;> simp [hp]

theorem mapKeys_mapSet_append (m : JobMap) (k : String) (v : Job)
    (h : ¬ hasKey m k = true) :
    mapKeys (mapSet m k v) = mapKeys m ++ [k] := by
  unfold mapSet
  rw [if_neg h]
  simp [mapKeys]

theorem mem_mapKeys_mapSet (m : JobMap) (k s : String) (v : Job) :
    s ∈ mapKeys (mapSet m k v) ↔ s ∈ mapKeys m ∨ s = k := by
  by_cases h : hasKey m k = true
  · rw [mapKeys_mapSet_replace m k v h]
    constructor
    · exact fun hs => Or.inl hs
    · rintro (hs | rfl)
      · exact hs
      · exact (hasKey_iff m s).mp h
  · rw [mapKeys_mapSet_append m k v h]
    simp

theorem goodMap_mapSet (P : Job → Prop) (m : JobMap) (k : String) (v : Job)
    (hg : goodMap P m) (hid : v.id = k) (hv : P v) :
    goodMap P (mapSet m k v) := by
  obtain ⟨hw, hnd, hP⟩ := hg
  by_cases h : hasKey m k = true
  · refine ⟨?_, ?_, ?_⟩
    · intro p hp
      unfold mapSet at hp
      rw [if_pos h] at hp
      rcases List.mem_map.mp hp with ⟨q, hq, hqe⟩
      by_cases hqk : q.1 = k
      · rw [if_pos hqk] at hqe
        rw [← hqe]
        exact hid
      · rw [if_neg hqk] at hqe
        rw [← hqe]
        exact hw q hq
    · rw [mapKeys_mapSet_replace m k v h]; exact hnd
    · intro p hp
      unfold mapSet at hp
      rw [if_pos h] at hp
      rcases List.mem_map.mp hp with ⟨q, hq, hqe⟩
      by_cases hqk : q.1 = k
      · rw [if_pos hqk] at hqe; rw [← hqe]; exact hv
      · rw [if_neg hqk] at hqe; rw [← hqe]; exact hP q hq
  · refine ⟨?_, ?_, ?_⟩
    · intro p hp
      unfold mapSet at hp
      rw [if_neg h] at hp
      rcases List.mem_append.mp hp with hp | hp
      · exact hw p hp
      · simp only [List.mem_singleton] at hp
        rw [hp]
        exact hid
    · rw [mapKeys_mapSet_append m k v h]
      rw [List.nodup_append]
      refine ⟨hnd, List.nodup_singleton k, ?_⟩
      intro s hs hsk
      simp only [List.mem_singleton] at hsk
      rw [hsk] at hs
      exact h ((hasKey_iff m k).mpr hs)
    · intro p hp
      unfold mapSet at hp
      rw [if_neg h] at hp
      rcases List.mem_append.mp hp with hp | hp
      · exact hP p hp
      · simp only [List.mem_singleton] at hp; rw [hp]; exact hv

theorem mapGet_of_mem (m : JobMap) (k : String) (j : Job)
    (hnd : (mapKeys m).Nodup) (hm : (k, j) ∈ m) :
    mapGet m k = some j := by
  induction m with
  | nil => simp at hm
  | cons p rest ih =>
    rcases List.mem_cons.mp hm with hp | hp
    · rw [← hp]
      unfold mapGet
      rw [List.find?_cons_of_pos _ (by simp)]
      rfl
    · have hk : k ∈ mapKeys rest :=
        List.mem_map.mpr ⟨(k, j), hp, rfl⟩
    
      have hnd2 : (mapKeys rest).Nodup ∧ p.1 ∉ mapKeys rest := by
        have h2 := hnd
        rw [show mapKeys (p :: rest) = p.1 :: mapKeys rest from rfl,
          List.nodup_cons] at h2
        exact ⟨h2.2, h2.1⟩
      have hpk : ¬ (p.1 = k) := fun h => hnd2.2 (h ▸ hk)
      unfold mapGet
      rw [List.find?_cons_of_neg _ (by simpa using hpk)]
      exact ih hnd2.1 hp

theorem mem_of_mapGet (m : JobMap) (k : String) (j : Job)
    (h : mapGet m k = some j) : (k, j) ∈ m := by
  unfold mapGet at h
  rcases hf : m.find? (fun p => decide (p.1 = k)) with _ | p
  · rw [hf] at h; simp at h
  · rw [hf] at h
    rw [show (some p).map Prod.snd = some p.2 from rfl] at h
    have h := Option.some.inj h
    have hp := List.find?_some hf
    have hmem := List.mem_of_find?_eq_some hf
    have hp1 : p.1 = k := of_decide_eq_true hp
    have : p = (k, j) := by
      rcases p with ⟨a, b⟩
      rw [show (a, b).1 = a from rfl] at hp1
      rw [show (a, b).2 = b from rfl] at h
      rw [hp1, h]
    rw [← this]
    exact hmem

theorem mem_mapValues (m : JobMap) (j : Job) :
    j ∈ mapValues m ↔ ∃ k, (k, j) ∈ m := by
  constructor
  · intro h
    rcases List.mem_map.mp h with ⟨p, hp, hpe⟩
    refine ⟨p.1, ?_⟩
    rw [← hpe]
    exact hp
  · rintro ⟨k, hk⟩
    exact List.mem_map.mpr ⟨(k, j), hk, rfl⟩

/-! ## Fold lemmas for the merge -/

theorem goodMap_nil (P : Job → Prop) : goodMap P [] := by
  refine ⟨?_, ?_, ?_⟩ <;> simp [wellKeyed, mapKeys]

theorem combineJobs_id (rJob lJob : Job) :
    (combineJobs rJob lJob).id = lJob.id := rfl

theorem seedStepGS_skip (m : JobMap) (r : Job) (hr : r.id = "") :
    seedStepGS m r = m := by
  unfold seedStepGS
  rw [if_pos hr]

theorem seedStepGS_set (m : JobMap) (r : Job) (hr : ¬ r.id = "") :
    seedStepGS m r = mapSet m r.id r := by
  unfold seedStepGS
  rw [if_neg hr]

theorem overlayStepGS_skip (m : JobMap) (l : Job) (hl : l.id = "") :
    overlayStepGS m l = m := by
  unfold overlayStepGS
  rw [if_pos hl]

theorem overlayStepGS_go (m : JobMap) (l : Job) (hl : ¬ l.id = "") :
    overlayStepGS m l = overlayStepFB m l := by
  unfold overlayStepGS overlayStepFB
  rw [if_neg hl]

theorem goodMap_foldl_seedFB (P : Job → Prop) (R : List Job) (m : JobMap)
    (hg : goodMap P m) (hP : ∀ j ∈ R, P j) :
    goodMap P (R.foldl seedStepFB m) := by
  induction R generalizing m with
  | nil => exact hg
  | cons r rest ih =>
    simp only [List.foldl_cons]
    exact ih _ (goodMap_mapSet P m r.id r hg rfl (hP r (by simp)))
      (fun j hj => hP j (List.mem_cons_of_mem r hj))

theorem goodMap_foldl_seedGS (P : Job → Prop) (R : List Job) (m : JobMap)
    (hg : goodMap P m) (hP : ∀ j ∈ R, P j) :
    goodMap P (R.foldl seedStepGS m) := by
  induction R generalizing m with
  | nil => exact hg
  | cons r rest ih =>
    simp only [List.foldl_cons]
    unfold seedStepGS
    by_cases hr : r.id = ""
    · rw [if_pos hr]
      exact ih _ hg (fun j hj => hP j (List.mem_cons_of_mem r hj))
    · rw [if_neg hr]
      exact ih _ (goodMap_mapSet P m r.id r hg rfl (hP r (by simp)))
        (fun j hj => hP j (List.mem_cons_of_mem r hj))

theorem goodMap_overlayStepFB (P : Job → Prop) (m : JobMap) (l : Job)
    (hg : goodMap P m) (hcomb : ∀ r, P (combineJobs r l)) (hl : P l) :
    goodMap P (overlayStepFB m l) := by
  unfold overlayStepFB
  rcases mapGet m l.id with _ | r
  · exact goodMap_mapSet P m l.id l hg rfl hl
  · exact goodMap_mapSet P m l.id (combineJobs r l) hg (combineJobs_id r l)
      (hcomb r)

theorem goodMap_foldl_overlayFB (P : Job → Prop) (L : List Job) (m : JobMap)
    (hg : goodMap P m) (hcomb : ∀ r l, P l → P (combineJobs r l))
    (hP : ∀ j ∈ L, P j) :
    goodMap P (L.foldl overlayStepFB m) := by
  induction L generalizing m with
  | nil => exact hg
  | cons l rest ih =>
    simp only [List.foldl_cons]
    exact ih _ (goodMap_overlayStepFB P m l hg
        (fun r => hcomb r l (hP l (by simp))) (hP l (by simp)))
      (fun j hj => hP j (List.mem_cons_of_mem l hj))

theorem goodMap_foldl_overlayGS (P : Job → Prop) (L : List Job) (m : JobMap)
    (hg : goodMap P m) (hcomb : ∀ r l, P l → P (combineJobs r l))
    (hP : ∀ j ∈ L, P j) :
    goodMap P (L.foldl overlayStepGS m) := by
  induction L generalizing m with
  | nil => exact hg
  | cons l rest ih =>
    simp only [List.foldl_cons]
    have hrest : ∀ j ∈ rest, P j := fun j hj => hP j (List.mem_cons_of_mem l hj)
    unfold overlayStepGS
    by_cases hle : l.id = ""
    · rw [if_pos hle]
      exact ih _ hg hrest
    · rw [if_neg hle]
      have : goodMap P
          (match mapGet m l.id with
           | some sheetJob => mapSet m l.id (combineJobs sheetJob l)
           | none => mapSet m l.id l) := by
        rcases mapGet m l.id with _ | r
        · exact goodMap_mapSet P m l.id l hg rfl (hP l (by simp))
        · exact goodMap_mapSet P m l.id (combineJobs r l) hg
            (combineJobs_id r l) (hcomb r l (hP l (by simp)))
      exact ih _ this hrest

theorem mem_mapKeys_foldl_seedFB (R : List Job) (m : JobMap) (s : String) :
    s ∈ mapKeys (R.foldl seedStepFB m) ↔
      s ∈ mapKeys m ∨ s ∈ R.map Job.id := by
  induction R generalizing m with
  | nil => simp
  | cons r rest ih =>
    simp only [List.foldl_cons, List.map_cons, List.mem_cons]
    rw [ih, show seedStepFB m r = mapSet m r.id r from rfl,
      mem_mapKeys_mapSet]
    tauto

theorem mem_mapKeys_foldl_seedGS (R : List Job) (m : JobMap) (s : String) :
    s ∈ mapKeys (R.foldl seedStepGS m) ↔
      s ∈ mapKeys m ∨ (s ∈ R.map Job.id ∧ s ≠ "") := by
  induction R generalizing m with
  | nil => simp
  | cons r rest ih =>
    simp only [List.foldl_cons, List.map_cons, List.mem_cons]
    by_cases hr : r.id = ""
    · rw [seedStepGS_skip m r hr, ih]
      constructor
      · rintro (h | h)
        · exact Or.inl h
        · exact Or.inr ⟨Or.inr h.1, h.2⟩
      · rintro (h | ⟨(h1 | h1), h2⟩)
        · exact Or.inl h
        · exact absurd (h1 ▸ hr) h2
        · exact Or.inr ⟨h1, h2⟩
    · rw [seedStepGS_set m r hr, ih, mem_mapKeys_mapSet]
      constructor
      · rintro ((h | h) | h)
        · exact Or.inl h
        · exact Or.inr ⟨Or.inl h, h ▸ hr⟩
        · exact Or.inr ⟨Or.inr h.1, h.2⟩
      · rintro (h | ⟨(h1 | h1), h2⟩)
        · exact Or.inl (Or.inl h)
        · exact Or.inl (Or.inr h1)
        · exact Or.inr ⟨h1, h2⟩

theorem mem_mapKeys_overlayStepFB (m : JobMap) (l : Job) (s : String) :
    s ∈ mapKeys (overlayStepFB m l) ↔ s ∈ mapKeys m ∨ s = l.id := by
  unfold overlayStepFB
  rcases mapGet m l.id with _ | r
  · exact mem_mapKeys_mapSet m l.id s l
  · exact mem_mapKeys_mapSet m l.id s (combineJobs r l)

theorem mem_mapKeys_foldl_overlayFB (L : List Job) (m : JobMap) (s : String) :
    s ∈ mapKeys (L.foldl overlayStepFB m) ↔
      s ∈ mapKeys m ∨ s ∈ L.map Job.id := by
  induction L generalizing m with
  | nil => simp
  | cons l rest ih =>
    simp only [List.foldl_cons, List.map_cons, List.mem_cons]
    rw [ih, mem_mapKeys_overlayStepFB]
    tauto

theorem mem_mapKeys_foldl_overlayGS (L : List Job) (m : JobMap) (s : String) :
    s ∈ mapKeys (L.foldl overlayStepGS m) ↔
      s ∈ mapKeys m ∨ (s ∈ L.map Job.id ∧ s ≠ "") := by
  induction L generalizing m with
  | nil => simp
  | cons l rest ih =>
    simp only [List.foldl_cons, List.map_cons, List.mem_cons]
    by_cases hl : l.id = ""
    · rw [overlayStepGS_skip m l hl, ih]
      constructor
      · rintro (h | h)
        · exact Or.inl h
        · exact Or.inr ⟨Or.inr h.1, h.2⟩
      · rintro (h | ⟨(h1 | h1), h2⟩)
        · exact Or.inl h
        · exact absurd (h1 ▸ hl) h2
        · exact Or.inr ⟨h1, h2⟩
    · rw [overlayStepGS_go m l hl]
      have hstep : ∀ s2,
          s2 ∈ mapKeys (overlayStepFB m l) ↔ s2 ∈ mapKeys m ∨ s2 = l.id :=
        fun s2 => mem_mapKeys_overlayStepFB m l s2
      rw [ih]
      constructor
      · rintro (h | h)
        · rcases (hstep s).mp h with h2 | h2
          · exact Or.inl h2
          · exact Or.inr ⟨Or.inl h2, h2 ▸ hl⟩
        · exact Or.inr ⟨Or.inr h.1, h.2⟩
      · rintro (h | ⟨(h1 | h1), h2⟩)
        · exact Or.inl ((hstep s).mpr (Or.inl h))
        · exact Or.inl ((hstep s).mpr (Or.inr h1))
        · exact Or.inr ⟨h1, h2⟩

theorem mapGet_overlayStepFB_ne (m : JobMap) (l : Job) (s : String)
    (h : s ≠ l.id) : mapGet (overlayStepFB m l) s = mapGet m s := by
  unfold overlayStepFB
  rcases mapGet m l.id with _ | r
  · exact mapGet_mapSet_ne m l.id s l h
  · exact mapGet_mapSet_ne m l.id s (combineJobs r l) h

theorem mapGet_foldl_seedFB_ne (R : List Job) (m : JobMap) (s : String)
    (h : s ∉ R.map Job.id) :
    mapGet (R.foldl seedStepFB m) s = mapGet m s := by
  induction R generalizing m with
  | nil => rfl
  | cons r rest ih =>
    have hs : s ≠ r.id := by
      intro he
      exact h (by simp [he])
    simp only [List.foldl_cons]
    rw [ih _ (fun hm => h (by simp [hm]))]
    exact mapGet_mapSet_ne m r.id s r hs

theorem mapGet_foldl_seedGS_ne (R : List Job) (m : JobMap) (s : String)
    (h : s ∉ R.map Job.id) :
    mapGet (R.foldl seedStepGS m) s = mapGet m s := by
  induction R generalizing m with
  | nil => rfl
  | cons r rest ih =>
    have hs : s ≠ r.id := by
      intro he
      exact h (by simp [he])
    simp only [List.foldl_cons]
    rw [ih _ (fun hm => h (by simp [hm]))]
    by_cases hr : r.id = ""
    · rw [seedStepGS_skip m r hr]
    · rw [seedStepGS_set m r hr]
      exact mapGet_mapSet_ne m r.id s r hs

theorem mapGet_foldl_overlayFB_ne (L : List Job) (m : JobMap) (s : String)
    (h : s ∉ L.map Job.id) :
    mapGet (L.foldl overlayStepFB m) s = mapGet m s := by
  induction L generalizing m with
  | nil => rfl
  | cons l rest ih =>
    have hs : s ≠ l.id := by
      intro he
      exact h (by simp [he])
    simp only [List.foldl_cons]
    rw [ih _ (fun hm => h (by simp [hm]))]
    exact mapGet_overlayStepFB_ne m l s hs

theorem mapGet_foldl_overlayGS_ne (L : List Job) (m : JobMap) (s : String)
    (h : s ∉ L.map Job.id) :
    mapGet (L.foldl overlayStepGS m) s = mapGet m s := by
  induction L generalizing m with
  | nil => rfl
  | cons l rest ih =>
    have hs : s ≠ l.id := by
      intro he
      exact h (by simp [he])
    simp only [List.foldl_cons]
    rw [ih _ (fun hm => h (by simp [hm]))]
    by_cases hl : l.id = ""
    · rw [overlayStepGS_skip m l hl]
    · rw [overlayStepGS_go m l hl]
      exact mapGet_overlayStepFB_ne m l s hs

theorem notMem_ids_of_nodup_split (X1 X2 : List Job) (x : Job)
    (hnd : ((X1 ++ x :: X2).map Job.id).Nodup) :
    x.id ∉ X1.map Job.id ∧ x.id ∉ X2.map Job.id := by
  rw [List.map_append, List.map_cons, List.nodup_append] at hnd
  obtain ⟨_, hnd2, hdisj⟩ := hnd
  rw [List.nodup_cons] at hnd2
  exact ⟨fun hm => hdisj hm (by simp), hnd2.1⟩

theorem mapGet_foldl_seedFB_mem (R : List Job) (m : JobMap) (r : Job)
    (hnd : (R.map Job.id).Nodup) (hr : r ∈ R) :
    mapGet (R.foldl seedStepFB m) r.id = some r := by
  rcases List.append_of_mem hr with ⟨R1, R2, rfl⟩
  obtain ⟨h1, h2⟩ := notMem_ids_of_nodup_split R1 R2 r hnd
  rw [List.foldl_append, List.foldl_cons]
  rw [mapGet_foldl_seedFB_ne R2 _ r.id h2]
  exact mapGet_mapSet_self _ r.id r

theorem mapGet_foldl_seedGS_mem (R : List Job) (m : JobMap) (r : Job)
    (hnd : (R.map Job.id).Nodup) (hr : r ∈ R) (hne : ¬ r.id = "") :
    mapGet (R.foldl seedStepGS m) r.id = some r := by
  rcases List.append_of_mem hr with ⟨R1, R2, rfl⟩
  obtain ⟨h1, h2⟩ := notMem_ids_of_nodup_split R1 R2 r hnd
  rw [List.foldl_append, List.foldl_cons]
  rw [mapGet_foldl_seedGS_ne R2 _ r.id h2, seedStepGS_set _ r hne]
  exact mapGet_mapSet_self _ r.id r

theorem mapGet_overlayStepFB_self (m : JobMap) (l : Job) :
    mapGet (overlayStepFB m l) l.id =
      some (match mapGet m l.id with
            | some r => combineJobs r l
            | none => l) := by
  unfold overlayStepFB
  rcases mapGet m l.id with _ | r
  · exact mapGet_mapSet_self m l.id l
  · exact mapGet_mapSet_self m l.id (combineJobs r l)

theorem mapGet_foldl_overlayFB_mem (L : List Job) (m : JobMap) (l : Job)
    (hnd : (L.map Job.id).Nodup) (hl : l ∈ L) :
    mapGet (L.foldl overlayStepFB m) l.id =
      some (match mapGet m l.id with
            | some r => combineJobs r l
            | none => l) := by
  rcases List.append_of_mem hl with ⟨L1, L2, rfl⟩
  obtain ⟨h1, h2⟩ := notMem_ids_of_nodup_split L1 L2 l hnd
  rw [List.foldl_append, List.foldl_cons]
  rw [mapGet_foldl_overlayFB_ne L2 _ l.id h2]
  rw [mapGet_overlayStepFB_self]
  rw [mapGet_foldl_overlayFB_ne L1 m l.id h1]

theorem mapGet_foldl_overlayGS_mem (L : List Job) (m : JobMap) (l : Job)
    (hnd : (L.map Job.id).Nodup) (hl : l ∈ L) (hne : ¬ l.id = "") :
    mapGet (L.foldl overlayStepGS m) l.id =
      some (match mapGet m l.id with
            | some r => combineJobs r l
            | none => l) := by
  rcases List.append_of_mem hl with ⟨L1, L2, rfl⟩
  obtain ⟨h1, h2⟩ := notMem_ids_of_nodup_split L1 L2 l hnd
  rw [List.foldl_append, List.foldl_cons]
  rw [mapGet_foldl_overlayGS_ne L2 _ l.id h2, overlayStepGS_go _ l hne]
  rw [mapGet_overlayStepFB_self]
  rw [mapGet_foldl_overlayGS_ne L1 m l.id h1]

/-! ## Sort lemmas -/

/-- The timestamp used for the descending sort; only read on valid
(`isSome`) timestamps. -/
def createdVal (j : Job) : Int := j.createdAt.getD 0

/-- Descending `createdAt` order between adjacent output jobs. -/
def descCreated (a b : Job) : Prop := createdVal b ≤ createdVal a

theorem mem_insertDesc (x a : Job) (l : List Job) :
    a ∈ insertDesc x l ↔ a = x ∨ a ∈ l := by
  induction l with
  | nil => simp [insertDesc]
  | cons y ys ih =>
    unfold insertDesc
    by_cases hb : jobBefore x y = true
    · rw [if_pos hb]
      simp
    · rw [if_neg hb]
      simp only [List.mem_cons, ih]
      tauto

theorem mem_sortJobsDesc (a : Job) (l : List Job) :
    a ∈ sortJobsDesc l ↔ a ∈ l := by
  induction l with
  | nil => simp [sortJobsDesc]
  | cons x xs ih =>
    unfold sortJobsDesc
    rw [mem_insertDesc, ih]
    simp

theorem jobBefore_valid (a b : Job) (ha : a.createdAt.isSome)
    (hb : b.createdAt.isSome) :
    jobBefore a b = true ↔ descCreated a b := by
  rcases hav : a.createdAt with _ | av
  · rw [hav] at ha; simp at ha
  · rcases hbv : b.createdAt with _ | bv
    · rw [hbv] at hb; simp at hb
    · simp [jobBefore, descCreated, createdVal, hav, hbv]

theorem sorted_insertDesc (x : Job) (l : List Job)
    (hx : x.createdAt.isSome) (hl : ∀ j ∈ l, j.createdAt.isSome)
    (hs : List.Sorted descCreated l) :
    List.Sorted descCreated (insertDesc x l) := by
  induction l with
  | nil => simp [insertDesc, List.Sorted]
  | cons y ys ih =>
    have hy : y.createdAt.isSome := hl y (by simp)
    have hys : ∀ j ∈ ys, j.createdAt.isSome :=
      fun j hj => hl j (List.mem_cons_of_mem y hj)
    have hsys : List.Sorted descCreated ys := hs.of_cons
    unfold insertDesc
    by_cases hb : jobBefore x y = true
    · rw [if_pos hb]
      have hxy : descCreated x y := (jobBefore_valid x y hx hy).mp hb
      rw [List.Sorted, List.pairwise_cons]
      refine ⟨?_, hs⟩
      intro z hz
      rcases List.mem_cons.mp hz with rfl | hz2
      · exact hxy
      · have hyz : descCreated y z := (List.pairwise_cons.mp hs).1 z hz2
        exact le_trans hyz hxy
    · rw [if_neg hb]
      have hxy : descCreated y x := by
        have := (jobBefore_valid x y hx hy)
        have hlt : ¬ descCreated x y := fun hd => hb (this.mpr hd)
        unfold descCreated at hlt ⊢
        omega
      rw [List.Sorted, List.pairwise_cons]
      refine ⟨?_, ih hys hsys⟩
      intro z hz
      rcases (mem_insertDesc x z ys).mp hz with rfl | hz2
      · exact hxy
      · exact (List.pairwise_cons.mp hs).1 z hz2

theorem sorted_sortJobsDesc (l : List Job)
    (h : ∀ j ∈ l, j.createdAt.isSome) :
    List.Sorted descCreated (sortJobsDesc l) := by
  induction l with
  | nil => simp [sortJobsDesc, List.Sorted]
  | cons x xs ih =>
    unfold sortJobsDesc
    exact sorted_insertDesc x (sortJobsDesc xs) (h x (by simp))
      (fun j hj => h j (List.mem_cons_of_mem x ((mem_sortJobsDesc j xs).mp hj)))
      (ih (fun j hj => h j (List.mem_cons_of_mem x hj)))

/-! ## Merge entry lemmas -/

theorem goodMap_mergeFirebase (L R : List Job) (P : Job → Prop)
    (hcomb : ∀ r l, P l → P (combineJobs r l))
    (hPL : ∀ j ∈ L, P j) (hPR : ∀ j ∈ R, P j) :
    goodMap P (L.foldl overlayStepFB (R.foldl seedStepFB [])) :=
  goodMap_foldl_overlayFB P L _
    (goodMap_foldl_seedFB P R [] (goodMap_nil P) hPR) hcomb hPL

theorem goodMap_mergeSheets (L R : List Job) (P : Job → Prop)
    (hcomb : ∀ r l, P l → P (combineJobs r l))
    (hPL : ∀ j ∈ L, P j) (hPR : ∀ j ∈ R, P j) :
    goodMap P (L.foldl overlayStepGS (R.foldl seedStepGS [])) :=
  goodMap_foldl_overlayGS P L _
    (goodMap_foldl_seedGS P R [] (goodMap_nil P) hPR) hcomb hPL

theorem mem_overlaid_of_mem_mergeFirebase (L R : List Job) (m : Job)
    (hm : m ∈ mergeFirebase L R) :
    m ∈ mapValues (L.foldl overlayStepFB (R.foldl seedStepFB [])) :=
  (mem_sortJobsDesc m _).mp hm

theorem mem_overlaid_of_mem_mergeSheets (L R : List Job) (m : Job)
    (hm : m ∈ mergeSheets L R) :
    m ∈ mapValues (L.foldl overlayStepGS (R.foldl seedStepGS [])) :=
  (mem_sortJobsDesc m _).mp hm

/-- In the Firebase merge, with distinct ids in each input collection, any
output job carrying the id of a job present in both sources is exactly the
combined (spread plus image fallback) entry. -/
theorem mergeFirebase_entry (L R : List Job) (l r : Job)
    (hL : (L.map Job.id).Nodup) (hR : (R.map Job.id).Nodup)
    (hlL : l ∈ L) (hrR : r ∈ R) (hid : l.id = r.id) :
    ∀ m ∈ mergeFirebase L R, m.id = l.id → m = combineJobs r l := by
  intro m hm hmid
  have hseed : mapGet (R.foldl seedStepFB []) l.id = some r := by
    rw [hid]
    exact mapGet_foldl_seedFB_mem R [] r hR hrR
  have hget : mapGet (L.foldl overlayStepFB (R.foldl seedStepFB [])) l.id =
      some (combineJobs r l) := by
    rw [mapGet_foldl_overlayFB_mem L _ l hL hlL, hseed]
  have hgood : goodMap (fun _ => True)
      (L.foldl overlayStepFB (R.foldl seedStepFB [])) :=
    goodMap_mergeFirebase L R _ (fun _ _ _ => trivial)
      (fun _ _ => trivial) (fun _ _ => trivial)
  have hv := mem_overlaid_of_mem_mergeFirebase L R m hm
  rcases (mem_mapValues _ m).mp hv with ⟨k, hk⟩
  have hkid : m.id = k := hgood.1 (k, m) hk
  have hgetm : mapGet (L.foldl overlayStepFB (R.foldl seedStepFB [])) l.id =
      some m := by
    rw [← hmid, hkid]
    exact mapGet_of_mem _ k m hgood.2.1 hk
  have := hgetm.symm.trans hget
  exact Option.some.inj this

/-- Same statement for the Sheets merge; a local job with an empty id never
reaches the map, making the statement vacuous in that case. -/
theorem mergeSheets_entry (L R : List Job) (l r : Job)
    (hL : (L.map Job.id).Nodup) (hR : (R.map Job.id).Nodup)
    (hlL : l ∈ L) (hrR : r ∈ R) (hid : l.id = r.id) :
    ∀ m ∈ mergeSheets L R, m.id = l.id → m = combineJobs r l := by
  intro m hm hmid
  have hgood : goodMap (fun _ => True)
      (L.foldl overlayStepGS (R.foldl seedStepGS [])) :=
    goodMap_mergeSheets L R _ (fun _ _ _ => trivial)
      (fun _ _ => trivial) (fun _ _ => trivial)
  have hv := mem_overlaid_of_mem_mergeSheets L R m hm
  rcases (mem_mapValues _ m).mp hv with ⟨k, hk⟩
  have hkid : m.id = k := hgood.1 (k, m) hk
  by_cases hle : l.id = ""
  · exfalso
    have hkkeys : k ∈ mapKeys (L.foldl overlayStepGS (R.foldl seedStepGS [])) :=
      List.mem_map.mpr ⟨(k, m), hk, rfl⟩
    rw [mem_mapKeys_foldl_overlayGS, mem_mapKeys_foldl_seedGS] at hkkeys
    have hkemp : k = "" := by rw [← hkid, hmid, hle]
    rcases hkkeys with (h0 | h0) | h0
    · simp [mapKeys] at h0
    · exact h0.2 hkemp
    · exact h0.2 hkemp
  · have hseed : mapGet (R.foldl seedStepGS []) l.id = some r := by
      rw [hid]
      exact mapGet_foldl_seedGS_mem R [] r hR hrR (by rw [← hid]; exact hle)
    have hget : mapGet (L.foldl overlayStepGS (R.foldl seedStepGS [])) l.id =
        some (combineJobs r l) := by
      rw [mapGet_foldl_overlayGS_mem L _ l hL hlL hle, hseed]
    have hgetm : mapGet (L.foldl overlayStepGS (R.foldl seedStepGS [])) l.id =
        some m := by
      rw [← hmid, hkid]
      exact mapGet_of_mem _ k m hgood.2.1 hk
    exact Option.some.inj (hgetm.symm.trans hget)

theorem mem_ids_mergeFirebase (L R : List Job) (s : String) :
    s ∈ (mergeFirebase L R).map Job.id ↔
      s ∈ L.map Job.id ∨ s ∈ R.map Job.id := by
  have hgood : goodMap (fun _ => True)
      (L.foldl overlayStepFB (R.foldl seedStepFB [])) :=
    goodMap_mergeFirebase L R _ (fun _ _ _ => trivial)
      (fun _ _ => trivial) (fun _ _ => trivial)
  have hkeys : s ∈ (mergeFirebase L R).map Job.id ↔
      s ∈ mapKeys (L.foldl overlayStepFB (R.foldl seedStepFB [])) := by
    constructor
    · intro h
      rcases List.mem_map.mp h with ⟨j, hj, hje⟩
      have hv := mem_overlaid_of_mem_mergeFirebase L R j hj
      rcases (mem_mapValues _ j).mp hv with ⟨k, hk⟩
      have : j.id = k := hgood.1 (k, j) hk
      rw [← hje, this]
      exact List.mem_map.mpr ⟨(k, j), hk, rfl⟩
    · intro h
      rcases List.mem_map.mp h with ⟨p, hp, hpe⟩
      have hid : p.2.id = s := by rw [← hpe]; exact hgood.1 p hp
      refine List.mem_map.mpr ⟨p.2, ?_, hid⟩
      exact (mem_sortJobsDesc p.2 _).mpr (List.mem_map.mpr ⟨p, hp, rfl⟩)
  rw [hkeys, mem_mapKeys_foldl_overlayFB, mem_mapKeys_foldl_seedFB]
  simp only [mapKeys, List.map_nil, List.not_mem_nil, false_or]
  tauto

theorem mem_ids_mergeSheets (L R : List Job) (s : String) :
    s ∈ (mergeSheets L R).map Job.id ↔
      (s ∈ L.map Job.id ∨ s ∈ R.map Job.id) ∧ s ≠ "" := by
  have hgood : goodMap (fun _ => True)
      (L.foldl overlayStepGS (R.foldl seedStepGS [])) :=
    goodMap_mergeSheets L R _ (fun _ _ _ => trivial)
      (fun _ _ => trivial) (fun _ _ => trivial)
  have hkeys : s ∈ (mergeSheets L R).map Job.id ↔
      s ∈ mapKeys (L.foldl overlayStepGS (R.foldl seedStepGS [])) := by
    constructor
    · intro h
      rcases List.mem_map.mp h with ⟨j, hj, hje⟩
      have hv := mem_overlaid_of_mem_mergeSheets L R j hj
      rcases (mem_mapValues _ j).mp hv with ⟨k, hk⟩
      have : j.id = k := hgood.1 (k, j) hk
      rw [← hje, this]
      exact List.mem_map.mpr ⟨(k, j), hk, rfl⟩
    · intro h
      rcases List.mem_map.mp h with ⟨p, hp, hpe⟩
      have hid : p.2.id = s := by rw [← hpe]; exact hgood.1 p hp
      refine List.mem_map.mpr ⟨p.2, ?_, hid⟩
      exact (mem_sortJobsDesc p.2 _).mpr (List.mem_map.mpr ⟨p, hp, rfl⟩)
  rw [hkeys, mem_mapKeys_foldl_overlayGS, mem_mapKeys_foldl_seedGS]
  simp only [mapKeys, List.map_nil, List.not_mem_nil, false_or]
  tauto

/-! ## Claims -/

/-- C1 (amended).  Merge completeness holds unconditionally for the
Firebase merge: the output id set is exactly the union of the local and
remote id sets.  The Sheets merge skips jobs with an empty id on both
sides (`if (job.id)` / `if (localJob.id)`), so its output id set is the
union restricted to nonempty ids. -/
theorem C1_merge_completeness (L R : List Job) :
    (∀ s, s ∈ (mergeFirebase L R).map Job.id ↔
        s ∈ L.map Job.id ∨ s ∈ R.map Job.id) ∧
    (∀ s, s ∈ (mergeSheets L R).map Job.id ↔
        (s ∈ L.map Job.id ∨ s ∈ R.map Job.id) ∧ s ≠ "") :=
  ⟨fun s => mem_ids_mergeFirebase L R s, fun s => mem_ids_mergeSheets L R s⟩

/-- C1 counterexample.  A remote job with an empty id is in the remote id
set but is dropped by the Sheets merge, so the output id set is not the
union of the input id sets. -/
theorem C1_counterexample :
    "" ∈ [sampleEmptyId].map Job.id ∧
      (mergeSheets [] [sampleEmptyId]).map Job.id = [] := by decide

/-- C2.  For a job id present in both collections (ids distinct within
each collection), every non-image field of the merged job equals the
corresponding field of the local job, in both merge variants; in
particular `manualNotes` takes the local value. -/
theorem C2_local_field_precedence (L R : List Job) (l r : Job)
    (hL : (L.map Job.id).Nodup) (hR : (R.map Job.id).Nodup)
    (hlL : l ∈ L) (hrR : r ∈ R) (hid : l.id = r.id) :
    (∀ m ∈ mergeFirebase L R, m.id = l.id →
      m.id = l.id ∧ m.createdAt = l.createdAt ∧ m.status = l.status ∧
      m.carDetails = l.carDetails ∧
      m.identifiedParts = l.identifiedParts ∧
      m.manualNotes = l.manualNotes ∧ m.repairType = l.repairType) ∧
    (∀ m ∈ mergeSheets L R, m.id = l.id →
      m.id = l.id ∧ m.createdAt = l.createdAt ∧ m.status = l.status ∧
      m.carDetails = l.carDetails ∧
      m.identifiedParts = l.identifiedParts ∧
      m.manualNotes = l.manualNotes ∧ m.repairType = l.repairType) := by
  constructor
  · intro m hm hmid
    rw [mergeFirebase_entry L R l r hL hR hlL hrR hid m hm hmid]
    simp [combineJobs]
  · intro m hm hmid
    rw [mergeSheets_entry L R l r hL hR hlL hrR hid m hm hmid]
    simp [combineJobs]

theorem C2_witness :
    (combineJobs sampleRemoteA sampleLocalA).id = sampleLocalA.id ∧
    (combineJobs sampleRemoteA sampleLocalA).createdAt =
      sampleLocalA.createdAt ∧
    (combineJobs sampleRemoteA sampleLocalA).status = sampleLocalA.status ∧
    (combineJobs sampleRemoteA sampleLocalA).carDetails =
      sampleLocalA.carDetails ∧
    (combineJobs sampleRemoteA sampleLocalA).identifiedParts =
      sampleLocalA.identifiedParts ∧
    (combineJobs sampleRemoteA sampleLocalA).manualNotes =
      sampleLocalA.manualNotes ∧
    (combineJobs sampleRemoteA sampleLocalA).repairType =
      sampleLocalA.repairType :=
  (C2_local_field_precedence [sampleLocalA] [sampleRemoteA]
      sampleLocalA sampleRemoteA (by decide) (by decide) (by decide)
      (by decide) (by decide)).1
    (combineJobs sampleRemoteA sampleLocalA) (by decide) (by decide)

/-- C3 (amended).  For a job id present in both collections, the merged
`intakeImage` is the local one when it is present AND non-empty (the code
uses JS truthiness, so a present empty string also falls back to the
remote value), else the remote one; the merged `damageImages` is the local
sequence when it is present and non-empty, else the remote one.  Holds for
both merge variants. -/
theorem C3_image_fallback (L R : List Job) (l r : Job)
    (hL : (L.map Job.id).Nodup) (hR : (R.map Job.id).Nodup)
    (hlL : l ∈ L) (hrR : r ∈ R) (hid : l.id = r.id) :
    (∀ m ∈ mergeFirebase L R, m.id = l.id →
      ((l.intakeImage ≠ none ∧ l.intakeImage ≠ some "" →
          m.intakeImage = l.intakeImage) ∧
       (l.intakeImage = none ∨ l.intakeImage = some "" →
          m.intakeImage = r.intakeImage) ∧
       (l.damageImages ≠ none ∧ l.damageImages ≠ some ([] : List String) →
          m.damageImages = l.damageImages) ∧
       (l.damageImages = none ∨ l.damageImages = some ([] : List String) →
          m.damageImages = r.damageImages))) ∧
    (∀ m ∈ mergeSheets L R, m.id = l.id →
      ((l.intakeImage ≠ none ∧ l.intakeImage ≠ some "" →
          m.intakeImage = l.intakeImage) ∧
       (l.intakeImage = none ∨ l.intakeImage = some "" →
          m.intakeImage = r.intakeImage) ∧
       (l.damageImages ≠ none ∧ l.damageImages ≠ some ([] : List String) →
          m.damageImages = l.damageImages) ∧
       (l.damageImages = none ∨ l.damageImages = some ([] : List String) →
          m.damageImages = r.damageImages))) := by
  have himg : ∀ m : Job, m = combineJobs r l →
      ((l.intakeImage ≠ none ∧ l.intakeImage ≠ some "" →
          m.intakeImage = l.intakeImage) ∧
       (l.intakeImage = none ∨ l.intakeImage = some "" →
          m.intakeImage = r.intakeImage) ∧
       (l.damageImages ≠ none ∧ l.damageImages ≠ some ([] : List String) →
          m.damageImages = l.damageImages) ∧
       (l.damageImages = none ∨ l.damageImages = some ([] : List String) →
          m.damageImages = r.damageImages)) := by
    rintro m rfl
    refine ⟨?_, ?_, ?_, ?_⟩
    · rintro ⟨h1, h2⟩
      rcases hin : l.intakeImage with _ | s
      · exact absurd hin h1
      · have hs : ¬ s = "" := fun he => h2 (by rw [hin, he])
        simp [combineJobs, jsOrImage, hin, hs]
    · rintro (h1 | h1) <;> simp [combineJobs, jsOrImage, h1]
    · rintro ⟨h1, h2⟩
      rcases hdm : l.damageImages with _ | xs
      · exact absurd hdm h1
      · have hs : xs ≠ [] := fun he => h2 (by rw [hdm, he])
        have hlen : xs.length > 0 := List.length_pos.mpr hs
        simp [combineJobs, pickDamageImages, hdm, hlen]
    · rintro (h1 | h1) <;> simp [combineJobs, pickDamageImages, h1]
  constructor
  · intro m hm hmid
    exact himg m (mergeFirebase_entry L R l r hL hR hlL hrR hid m hm hmid)
  · intro m hm hmid
    exact himg m (mergeSheets_entry L R l r hL hR hlL hrR hid m hm hmid)

theorem C3_witness :
    (sampleLocalA.intakeImage ≠ none ∧ sampleLocalA.intakeImage ≠ some "" →
      (combineJobs sampleRemoteA sampleLocalA).intakeImage =
        sampleLocalA.intakeImage) ∧
    (sampleLocalA.intakeImage = none ∨ sampleLocalA.intakeImage = some "" →
      (combineJobs sampleRemoteA sampleLocalA).intakeImage =
        sampleRemoteA.intakeImage) ∧
    (sampleLocalA.damageImages ≠ none ∧
        sampleLocalA.damageImages ≠ some ([] : List String) →
      (combineJobs sampleRemoteA sampleLocalA).damageImages =
        sampleLocalA.damageImages) ∧
    (sampleLocalA.damageImages = none ∨
        sampleLocalA.damageImages = some ([] : List String) →
      (combineJobs sampleRemoteA sampleLocalA).damageImages =
        sampleRemoteA.damageImages) :=
  (C3_image_fallback [sampleLocalA] [sampleRemoteA]
      sampleLocalA sampleRemoteA (by decide) (by decide) (by decide)
      (by decide) (by decide)).1
    (combineJobs sampleRemoteA sampleLocalA) (by decide) (by decide)

/-- C3 counterexample.  A local job whose `intakeImage` is present but
equal to the empty string: the claim as stated requires the merged
`intakeImage` to be the (present) local value, but the code's `||`
fallback yields the remote image instead. -/
theorem C3_counterexample :
    sampleLocalEmptyImages.intakeImage = some "" ∧
      (mergeFirebase [sampleLocalEmptyImages] [sampleRemoteA]).map
        Job.intakeImage = [some "R"] := by decide

/-- C4.  For input jobs carrying valid (non-`NaN`) timestamps, the merged
output of both sync variants is sorted by `createdAt` descending. -/
theorem C4_sort_order (L R : List Job)
    (h : ∀ j ∈ L ++ R, j.createdAt.isSome) :
    List.Sorted descCreated (mergeFirebase L R) ∧
    List.Sorted descCreated (mergeSheets L R) := by
  have hL : ∀ j ∈ L, j.createdAt.isSome :=
    fun j hj => h j (List.mem_append.mpr (Or.inl hj))
  have hR : ∀ j ∈ R, j.createdAt.isSome :=
    fun j hj => h j (List.mem_append.mpr (Or.inr hj))
  have hcomb : ∀ r l : Job, l.createdAt.isSome →
      (combineJobs r l).createdAt.isSome := fun r l hl => hl
  constructor
  · apply sorted_sortJobsDesc
    intro j hj
    rcases (mem_mapValues _ j).mp hj with ⟨k, hk⟩
    exact (goodMap_mergeFirebase L R _ hcomb hL hR).2.2 (k, j) hk
  · apply sorted_sortJobsDesc
    intro j hj
    rcases (mem_mapValues _ j).mp hj with ⟨k, hk⟩
    exact (goodMap_mergeSheets L R _ hcomb hL hR).2.2 (k, j) hk

theorem C4_witness :
    List.Sorted descCreated
      (mergeFirebase [sampleJobB, sampleLocalA] [sampleRemoteA]) ∧
    List.Sorted descCreated
      (mergeSheets [sampleJobB, sampleLocalA] [sampleRemoteA]) :=
  C4_sort_order [sampleJobB, sampleLocalA] [sampleRemoteA] (by decide)

/-! ## Split / join round trip -/

theorem splitSepChars_cons_cons (c1 c2 : Char) (rest acc : List Char) :
    splitSepChars (c1 :: c2 :: rest) acc =
      if c1 = ',' then
        if c2 = ' ' then acc.reverse :: splitSepChars rest []
        else splitSepChars (c2 :: rest) (c1 :: acc)
      else splitSepChars (c2 :: rest) (c1 :: acc) := rfl

theorem splitSep_last (p : List Char) (acc : List Char) (hp : ',' ∉ p) :
    splitSepChars p acc = [acc.reverse ++ p] := by
  induction p generalizing acc with
  | nil => simp [splitSepChars]
  | cons c cs ih =>
    have hc : ¬ c = ',' := by
      intro h
      exact hp (by simp [h])
    cases cs with
    | nil => simp [splitSepChars]
    | cons c2 cs2 =>
      rw [splitSepChars_cons_cons, if_neg hc]
      rw [ih _ (fun h => hp (List.mem_cons_of_mem c h))]
      simp

theorem splitSep_run (p : List Char) (rest acc : List Char)
    (hp : ',' ∉ p) :
    splitSepChars (p ++ ',' :: ' ' :: rest) acc =
      (acc.reverse ++ p) :: splitSepChars rest [] := by
  induction p generalizing acc with
  | nil =>
    simp only [List.nil_append]
    rw [splitSepChars_cons_cons, if_pos rfl, if_pos rfl]
    simp
  | cons c cs ih =>
    have hc : ¬ c = ',' := by
      intro h
      exact hp (by simp [h])
    rcases hcs : cs ++ ',' :: ' ' :: rest with _ | ⟨c2, rest2⟩
    · exact absurd hcs (by simp)
    · rw [List.cons_append, hcs, splitSepChars_cons_cons, if_neg hc]
      rw [← hcs, ih _ (fun h => hp (List.mem_cons_of_mem c h))]
      simp

theorem joinSplit (parts : List (List Char)) (hne : parts ≠ [])
    (hp : ∀ p ∈ parts, ',' ∉ p) :
    splitSepChars (joinSepChars parts) [] = parts := by
  induction parts with
  | nil => exact absurd rfl hne
  | cons p ps ih =>
    cases ps with
    | nil =>
      rw [show joinSepChars [p] = p from rfl,
        splitSep_last p [] (hp p (by simp))]
      simp
    | cons q ps2 =>
      rw [show joinSepChars (p :: q :: ps2) =
          p ++ ',' :: ' ' :: joinSepChars (q :: ps2) from rfl]
      rw [splitSep_run p _ [] (hp p (by simp))]
      rw [ih (by simp) (fun x hx => hp x (List.mem_cons_of_mem p hx))]
      simp

theorem joinSep_ne_nil (parts : List (List Char)) (h1 : parts ≠ [])
    (h2 : parts ≠ [[]]) : joinSepChars parts ≠ [] := by
  rcases parts with _ | ⟨p, ps⟩
  · exact absurd rfl h1
  · rcases ps with _ | ⟨q, ps2⟩
    · intro he
      rw [show joinSepChars [p] = p from rfl] at he
      exact h2 (by rw [he])
    · intro he
      rw [show joinSepChars (p :: q :: ps2) =
          p ++ ',' :: ' ' :: joinSepChars (q :: ps2) from rfl] at he
      exact absurd he (by simp)

theorem partsSplit_partsJoin (parts : List String) (hne : parts ≠ [])
    (hp : ∀ p ∈ parts, ',' ∉ p.data) :
    partsSplit (partsJoin parts) = parts := by
  unfold partsSplit partsJoin
  rw [show (String.mk (joinSepChars (parts.map String.data))).data =
      joinSepChars (parts.map String.data) from rfl]
  rw [joinSplit (parts.map String.data) (by simpa using hne)
    (by
      intro q hq
      rcases List.mem_map.mp hq with ⟨s, hs, rfl⟩
      exact hp s hs)]
  rw [List.map_map]
  exact List.map_id'' (fun s => rfl) parts

theorem partsJoin_ne_empty (parts : List String) (h1 : parts ≠ [])
    (h2 : parts ≠ [""]) : partsJoin parts ≠ "" := by
  unfold partsJoin
  intro he
  have hdata : joinSepChars (parts.map String.data) = [] := by
    have := congrArg String.data he
    simpa using this
  refine joinSep_ne_nil (parts.map String.data) (by simpa using h1) ?_ hdata
  intro hm
  apply h2
  rcases parts with _ | ⟨p, ps⟩
  · simp at hm
  · rw [List.map_cons] at hm
    have h3 : p.data = [] ∧ ps.map String.data = [] := by
      have := List.cons.inj hm
      exact ⟨this.1, this.2⟩
    have hps : ps = [] := by
      rcases ps with _ | ⟨x, xs⟩
      · rfl
      · simp at h3
    have hpd : p = "" := by
      have h4 : p = String.mk p.data := rfl
      rw [h4, h3.1]
    rw [hps, hpd]

/-! ## Row codec lemmas and claims -/

theorem cellOr_empty (row : List String) (i : Nat) :
    cellOr row i "" = row.getD i "" := by
  unfold cellOr
  by_cases h : row.getD i "" = ""
  · rw [if_pos h, h]
  · rw [if_neg h]

/-- Decoding a row produced by `jobToRow` (whose image cells are always
the literal `"[]"`). -/
theorem rowToJob_on_jobToRow (parseTime : String → Option Int)
    (isoOfTime : Int → String) (now : Int)
    (jsonParse : String → Option JsonValue)
    (i0 i1 i2 i3 i4 i5 i6 i7 i8 : String)
    (hjson : jsonParse "[]" = some (JsonValue.arr [])) :
    rowToJob parseTime isoOfTime now jsonParse
        [i0, i1, i2, i3, i4, i5, i6, i7, i8, "[]", "[]"] =
      { id := i0
        createdAt := parseTime (if i1 = "" then isoOfTime now else i1)
        status := if i2 = "" then "Ingreso" else i2
        carDetails := some { plate := i3, make := i4, model := i5 }
        intakeImage := none
        damageImages := some []
        identifiedParts := if i7 = "" then [] else partsSplit i7
        manualNotes := i8
        repairType := if i6 = "" then "AMBOS" else i6 } := by
  simp only [rowToJob, cellOr, List.getD]
  simp [hjson]
  refine ⟨fun h => h.symm, ⟨fun h => h.symm, fun h => h.symm, fun h => h.symm⟩,
    ?_, fun h => h.symm⟩
  by_cases h7 : i7 = "" <;> simp [h7]

/-- C5 (amended).  The row round trip preserves every text field of a job
with a valid timestamp and valid enum values, turns the image fields into
the empty values (`undefined` intake image, empty damage list), and
preserves the `identifiedParts` content whenever no part contains a comma
AND the parts list is not the single empty string: `[""]` joins to the
empty cell, which decodes back to the empty list. -/
theorem C5_row_round_trip (isoOfTime : Int → String)
    (parseTime : String → Option Int) (now : Int)
    (jsonParse : String → Option JsonValue) (job : Job) (t : Int)
    (row : List String)
    (hts : job.createdAt = some t)
    (hrow : jobToRow isoOfTime job = some row)
    (hstatus : job.status ∈ jobStatusValues)
    (hrepair : job.repairType ∈ repairTypeValues)
    (hjson : jsonParse "[]" = some (JsonValue.arr []))
    (hparts : ∀ p ∈ job.identifiedParts, ',' ∉ p.data)
    (hpe : job.identifiedParts ≠ [""]) :
    (rowToJob parseTime isoOfTime now jsonParse row).id = job.id ∧
    (rowToJob parseTime isoOfTime now jsonParse row).status = job.status ∧
    carField (rowToJob parseTime isoOfTime now jsonParse row)
      CarDetails.plate = carField job CarDetails.plate ∧
    carField (rowToJob parseTime isoOfTime now jsonParse row)
      CarDetails.make = carField job CarDetails.make ∧
    carField (rowToJob parseTime isoOfTime now jsonParse row)
      CarDetails.model = carField job CarDetails.model ∧
    (rowToJob parseTime isoOfTime now jsonParse row).repairType =
      job.repairType ∧
    (rowToJob parseTime isoOfTime now jsonParse row).manualNotes =
      job.manualNotes ∧
    (rowToJob parseTime isoOfTime now jsonParse row).intakeImage = none ∧
    (rowToJob parseTime isoOfTime now jsonParse row).damageImages =
      some [] ∧
    (rowToJob parseTime isoOfTime now jsonParse row).identifiedParts.Perm
      job.identifiedParts := by
  have hsne : ¬ job.status = "" := by
    intro he
    rw [he] at hstatus
    exact absurd hstatus (by decide)
  have hrne : ¬ job.repairType = "" := by
    intro he
    rw [he] at hrepair
    exact absurd hrepair (by decide)
  unfold jobToRow at hrow
  rw [hts] at hrow
  have hr := Option.some.inj hrow
  subst hr
  rw [rowToJob_on_jobToRow parseTime isoOfTime now jsonParse _ _ _ _ _ _ _ _ _
    hjson]
  refine ⟨rfl, ?_, rfl, rfl, rfl, ?_, rfl, rfl, rfl, ?_⟩
  · exact if_neg hsne
  · exact if_neg hrne
  · show (if partsJoin job.identifiedParts = "" then []
      else partsSplit (partsJoin job.identifiedParts)).Perm
        job.identifiedParts
    by_cases hp0 : job.identifiedParts = []
    · rw [hp0]
      rw [show partsJoin [] = "" from rfl, if_pos rfl]
    · rw [if_neg (partsJoin_ne_empty _ hp0 hpe),
        partsSplit_partsJoin _ hp0 hparts]

theorem C5_witness :
    (rowToJob parseTimeModel isoOfTimeModel 55 jsonParseModel
      ["j1", "1000", "Valoración", "AB-123", "Seat", "Ibiza", "CHAPA",
        "puerta, aleta", "notas", "[]", "[]"]).id = sampleRowJob.id ∧
    (rowToJob parseTimeModel isoOfTimeModel 55 jsonParseModel
      ["j1", "1000", "Valoración", "AB-123", "Seat", "Ibiza", "CHAPA",
        "puerta, aleta", "notas", "[]", "[]"]).status = sampleRowJob.status ∧
    carField (rowToJob parseTimeModel isoOfTimeModel 55 jsonParseModel
      ["j1", "1000", "Valoración", "AB-123", "Seat", "Ibiza", "CHAPA",
        "puerta, aleta", "notas", "[]", "[]"])
      CarDetails.plate = carField sampleRowJob CarDetails.plate ∧
    carField (rowToJob parseTimeModel isoOfTimeModel 55 jsonParseModel
      ["j1", "1000", "Valoración", "AB-123", "Seat", "Ibiza", "CHAPA",
        "puerta, aleta", "notas", "[]", "[]"])
      CarDetails.make = carField sampleRowJob CarDetails.make ∧
    carField (rowToJob parseTimeModel isoOfTimeModel 55 jsonParseModel
      ["j1", "1000", "Valoración", "AB-123", "Seat", "Ibiza", "CHAPA",
        "puerta, aleta", "notas", "[]", "[]"])
      CarDetails.model = carField sampleRowJob CarDetails.model ∧
    (rowToJob parseTimeModel isoOfTimeModel 55 jsonParseModel
      ["j1", "1000", "Valoración", "AB-123", "Seat", "Ibiza", "CHAPA",
        "puerta, aleta", "notas", "[]", "[]"]).repairType =
      sampleRowJob.repairType ∧
    (rowToJob parseTimeModel isoOfTimeModel 55 jsonParseModel
      ["j1", "1000", "Valoración", "AB-123", "Seat", "Ibiza", "CHAPA",
        "puerta, aleta", "notas", "[]", "[]"]).manualNotes =
      sampleRowJob.manualNotes ∧
    (rowToJob parseTimeModel isoOfTimeModel 55 jsonParseModel
      ["j1", "1000", "Valoración", "AB-123", "Seat", "Ibiza", "CHAPA",
        "puerta, aleta", "notas", "[]", "[]"]).intakeImage = none ∧
    (rowToJob parseTimeModel isoOfTimeModel 55 jsonParseModel
      ["j1", "1000", "Valoración", "AB-123", "Seat", "Ibiza", "CHAPA",
        "puerta, aleta", "notas", "[]", "[]"]).damageImages = some [] ∧
    (rowToJob parseTimeModel isoOfTimeModel 55 jsonParseModel
      ["j1", "1000", "Valoración", "AB-123", "Seat", "Ibiza", "CHAPA",
        "puerta, aleta", "notas", "[]", "[]"]).identifiedParts.Perm
      sampleRowJob.identifiedParts :=
  C5_row_round_trip isoOfTimeModel parseTimeModel 55 jsonParseModel
    sampleRowJob 1000
    ["j1", "1000", "Valoración", "AB-123", "Seat", "Ibiza", "CHAPA",
      "puerta, aleta", "notas", "[]", "[]"]
    (by decide) (by decide) (by decide) (by decide) (by decide) (by decide)
    (by decide)

/-- C5 counterexample.  The parts list `[""]` (its single part contains no
comma) joins to the empty string, which decodes back to the empty list:
the round trip loses the content of `identifiedParts`. -/
theorem C5_counterexample :
    samplePartsEmptyJob.identifiedParts = [""] ∧
    (Char.ofNat 44) ∉ String.data "" ∧
    (jobToRow isoOfTimeModel samplePartsEmptyJob).map
      (fun r => (rowToJob parseTimeModel isoOfTimeModel 55 jsonParseModel
        r).identifiedParts) = some [] := by decide

/-- C6 (amended).  `rowToJob` is a total function on arbitrary rows: a
missing or empty cell yields the documented default (empty text, default
status and repair-type enum values, empty parts), and a MISSING or empty
date cell yields the current time.  However a PRESENT but unparsable date
cell yields the invalid timestamp `NaN` (`new Date(s).getTime()`), not the
current time; the merged equation `createdAt = parseTime cell` records
this. -/
theorem C6_soft_failure (parseTime : String → Option Int)
    (isoOfTime : Int → String) (now : Int)
    (jsonParse : String → Option JsonValue) (row : List String)
    (hnow : parseTime (isoOfTime now) = some now) :
    (rowToJob parseTime isoOfTime now jsonParse row).id = row.getD 0 "" ∧
    (row.getD 1 "" = "" →
      (rowToJob parseTime isoOfTime now jsonParse row).createdAt =
        some now) ∧
    (row.getD 1 "" ≠ "" →
      (rowToJob parseTime isoOfTime now jsonParse row).createdAt =
        parseTime (row.getD 1 "")) ∧
    (row.getD 2 "" = "" →
      (rowToJob parseTime isoOfTime now jsonParse row).status =
        "Ingreso") ∧
    (row.getD 6 "" = "" →
      (rowToJob parseTime isoOfTime now jsonParse row).repairType =
        "AMBOS") ∧
    (row.getD 7 "" = "" →
      (rowToJob parseTime isoOfTime now jsonParse row).identifiedParts =
        []) ∧
    (rowToJob parseTime isoOfTime now jsonParse row).manualNotes =
      row.getD 8 "" ∧
    carField (rowToJob parseTime isoOfTime now jsonParse row)
      CarDetails.plate = row.getD 3 "" ∧
    carField (rowToJob parseTime isoOfTime now jsonParse row)
      CarDetails.make = row.getD 4 "" ∧
    carField (rowToJob parseTime isoOfTime now jsonParse row)
      CarDetails.model = row.getD 5 "" := by
  refine ⟨cellOr_empty row 0, ?_, ?_, ?_, ?_, ?_, cellOr_empty row 8,
    cellOr_empty row 3, cellOr_empty row 4, cellOr_empty row 5⟩
  · intro h
    show parseTime (cellOr row 1 (isoOfTime now)) = some now
    unfold cellOr
    rw [if_pos h]
    exact hnow
  · intro h
    show parseTime (cellOr row 1 (isoOfTime now)) =
      parseTime (row.getD 1 "")
    unfold cellOr
    rw [if_neg h]
  · intro h
    show cellOr row 2 "Ingreso" = "Ingreso"
    unfold cellOr
    rw [if_pos h]
  · intro h
    show cellOr row 6 "AMBOS" = "AMBOS"
    unfold cellOr
    rw [if_pos h]
  · intro h
    show (if cellOr row 7 "" = "" then []
      else partsSplit (cellOr row 7 "")) = []
    have h2 : cellOr row 7 "" = "" := by
      unfold cellOr
      rw [if_pos h]
    rw [if_pos h2]

theorem C6_witness :
    (rowToJob parseTimeModel isoOfTimeModel 1000 jsonParseModel []).id =
      ([] : List String).getD 0 "" ∧
    (([] : List String).getD 1 "" = "" →
      (rowToJob parseTimeModel isoOfTimeModel 1000 jsonParseModel
        []).createdAt = some 1000) ∧
    (([] : List String).getD 1 "" ≠ "" →
      (rowToJob parseTimeModel isoOfTimeModel 1000 jsonParseModel
        []).createdAt = parseTimeModel (([] : List String).getD 1 "")) ∧
    (([] : List String).getD 2 "" = "" →
      (rowToJob parseTimeModel isoOfTimeModel 1000 jsonParseModel
        []).status = "Ingreso") ∧
    (([] : List String).getD 6 "" = "" →
      (rowToJob parseTimeModel isoOfTimeModel 1000 jsonParseModel
        []).repairType = "AMBOS") ∧
    (([] : List String).getD 7 "" = "" →
      (rowToJob parseTimeModel isoOfTimeModel 1000 jsonParseModel
        []).identifiedParts = []) ∧
    (rowToJob parseTimeModel isoOfTimeModel 1000 jsonParseModel
      []).manualNotes = ([] : List String).getD 8 "" ∧
    carField (rowToJob parseTimeModel isoOfTimeModel 1000 jsonParseModel [])
      CarDetails.plate = ([] : List String).getD 3 "" ∧
    carField (rowToJob parseTimeModel isoOfTimeModel 1000 jsonParseModel [])
      CarDetails.make = ([] : List String).getD 4 "" ∧
    carField (rowToJob parseTimeModel isoOfTimeModel 1000 jsonParseModel [])
      CarDetails.model = ([] : List String).getD 5 "" :=
  C6_soft_failure parseTimeModel isoOfTimeModel 1000 jsonParseModel []
    (by decide)

/-- C6 counterexample.  A present but unparsable date cell
(`"garbage"`): the decoded `createdAt` is `NaN` (`none`), not the current
time `1000` claimed by the spec. -/
theorem C6_counterexample :
    parseTimeModel "garbage" = none ∧
    (rowToJob parseTimeModel isoOfTimeModel 1000 jsonParseModel
      ["j1", "garbage"]).createdAt = none ∧
    (rowToJob parseTimeModel isoOfTimeModel 1000 jsonParseModel
      ["j1", "garbage"]).createdAt ≠ some 1000 := by decide

/-! ## Orchestrator claims -/

/-- C7.  `syncWithFirebase` writes at most the first 450 jobs of the
sorted merged list to the remote batch (`mergedJobs.slice(0, 450)`: the
tail is truncated, not an error) and returns the complete untruncated
merged collection. -/
theorem C7_batch_cap (compress : String → String) (L R : List Job) :
    (syncWithFirebaseModel compress L R).batchedJobs.length ≤ 450 ∧
    (∃ rest, (syncWithFirebaseModel compress L R).returnedJobs =
      (syncWithFirebaseModel compress L R).batchedJobs ++ rest) ∧
    (syncWithFirebaseModel compress L R).returnedJobs =
      mergeFirebase L R := by
  refine ⟨?_, ⟨(mergeFirebase L R).drop 450, ?_⟩, rfl⟩
  · show ((mergeFirebase L R).take 450).length ≤ 450
    rw [List.length_take]
    exact min_le_left _ _
  · show mergeFirebase L R =
      (mergeFirebase L R).take 450 ++ (mergeFirebase L R).drop 450
    exact (List.take_append_drop 450 _).symm

/-- C8.  Each sync orchestrator raises the configuration error before any
remote call whenever its required settings are absent (the Firebase config
for `syncWithFirebase`; the sheet id or access token for
`syncWithGoogleSheets`): the outcome is `configError` for every local and
remote job list, so no merged list replaces the caller's input. -/
theorem C8_config_fail_fast (settings : AppSettings) :
    (settings.firebaseConfig = none →
      ∀ L R, syncWithFirebaseOutcome L settings R =
        SyncOutcome.configError) ∧
    (settings.googleSheetId = none ∨ settings.googleAccessToken = none →
      ∀ L S, syncWithGoogleSheetsOutcome L settings S =
        SyncOutcome.configError) := by
  constructor
  · intro h L R
    have hmiss : firebaseConfigMissing settings = true := by
      unfold firebaseConfigMissing
      rw [h]
    unfold syncWithFirebaseOutcome
    rw [if_pos hmiss]
  · intro h L S
    have hmiss : sheetsConfigMissing settings = true := by
      unfold sheetsConfigMissing
      rcases h with h | h <;> rw [h] <;> simp
    unfold syncWithGoogleSheetsOutcome
    rw [if_pos hmiss]

theorem C8_witness :
    syncWithFirebaseOutcome [sampleLocalA] sampleEmptySettings
      [sampleRemoteA] = SyncOutcome.configError ∧
    syncWithGoogleSheetsOutcome [sampleLocalA] sampleEmptySettings
      [sampleRemoteA] = SyncOutcome.configError :=
  ⟨(C8_config_fail_fast sampleEmptySettings).1 (by decide)
      [sampleLocalA] [sampleRemoteA],
    (C8_config_fail_fast sampleEmptySettings).2 (by decide)
      [sampleLocalA] [sampleRemoteA]⟩

/-- C9.  The normalizer never upscales: when the source width does not
exceed the maximum, the output dimensions equal the input dimensions; when
it does, the output width is the maximum and the height is scaled
proportionally (`Math.round(h * maxWidth / w)`), never exceeding the
input dimensions. -/
theorem C9_no_upscale (w h maxWidth : Nat) :
    (w ≤ maxWidth → compressImageDims w h maxWidth = (w, h)) ∧
    (w > maxWidth →
      (compressImageDims w h maxWidth).1 = maxWidth ∧
      (compressImageDims w h maxWidth).2 = roundDiv (h * maxWidth) w ∧
      (compressImageDims w h maxWidth).1 ≤ w ∧
      (compressImageDims w h maxWidth).2 ≤ h) := by
  constructor
  · intro hle
    unfold compressImageDims
    rw [if_neg (by omega)]
  · intro hgt
    have hw : 0 < w := lt_of_le_of_lt (Nat.zero_le maxWidth) hgt
    unfold compressImageDims
    rw [if_pos hgt]
    refine ⟨rfl, rfl, by omega, ?_⟩
    show roundDiv (h * maxWidth) w ≤ h
    unfold roundDiv
    have hA : h * maxWidth ≤ h * w := Nat.mul_le_mul_left h (le_of_lt hgt)
    apply Nat.lt_succ_iff.mp
    rw [Nat.div_lt_iff_lt_mul (by omega : 0 < 2 * w)]
    have hexp : (h + 1) * (2 * w) = 2 * (h * w) + 2 * w := by ring
    rw [hexp]
    linarith [hA, hw]

theorem C9_witness :
    compressImageDims 400 300 800 = (400, 300) ∧
    ((compressImageDims 1600 1200 800).1 = 800 ∧
      (compressImageDims 1600 1200 800).2 = roundDiv (1200 * 800) 1600 ∧
      (compressImageDims 1600 1200 800).1 ≤ 1600 ∧
      (compressImageDims 1600 1200 800).2 ≤ 1200) :=
  ⟨(C9_no_upscale 400 300 800).1 (by decide),
    (C9_no_upscale 1600 1200 800).2 (by decide)⟩

/-- C10.  The list `syncWithFirebase` returns is exactly the merge
output, for every compression function: compression and sanitization act
only on the per-job payload copies built by `prepareJobForCloud`
(`{ ...job }`), so the returned jobs keep the uncompressed image fields
produced by the merge. -/
theorem C10_returned_list_unaffected (compress : String → String)
    (L R : List Job) :
    (syncWithFirebaseModel compress L R).returnedJobs =
      mergeFirebase L R ∧
    (∀ c2 : String → String,
      (syncWithFirebaseModel c2 L R).returnedJobs = mergeFirebase L R) ∧
    (syncWithFirebaseModel compress L R).batchedPayloads =
      ((mergeFirebase L R).take 450).map (prepareJobForCloud compress) :=
  ⟨rfl, fun _ => rfl, rfl⟩
